import Mathlib

/-!
Shallow embedding of the `oxide` KNN library (src/util.rs, src/knn.rs,
src/core.rs) and verification of its specification claims.

Modelling conventions:
* `f64` values are embedded as rationals `ℚ` (the claims under scrutiny use
  only field operations and comparisons, no square roots).
* Rust `panic!` / `.unwrap()` failures are made explicit: fallible functions
  return `Except String _`, with `Except.error` standing for a panic.
* `HashMap<T, u64>` is embedded as an association list with distinct keys;
  its (implementation-defined) iteration order is the list order, with
  first insertion at the head.  `u64` counts are embedded as `Nat`
  (counts only ever increment by one per `insert` call).
-/

namespace Oxide

/-- Panic message of `Option::unwrap` on `None` (Rust's text). -/
def unwrapMsg : String := "called Option.unwrap on a None value"

/-- Panic message of an out-of-bounds `Vec` index. -/
def indexMsg : String := "index out of bounds"

/-- Panic message from `predict_one` when labels are missing after training. -/
def emptyLabelsMsg : String := "Empty labels after training"

/-- Embedding of `util::dot_product`: fold of `acc + a * b` over the zip of
the two vectors, starting from `0`. -/
def dotProduct (v1 v2 : List ℚ) : ℚ :=
  (v1.zip v2).foldl (fun acc p => acc + p.1 * p.2) 0

/-- Embedding of `util::squared_distance`: the dot product of the
elementwise difference (over the zip) with itself. -/
def squaredDistance (v1 v2 : List ℚ) : ℚ :=
  let delta := (v1.zip v2).map (fun p => p.1 - p.2)
  dotProduct delta delta

/-- Embedding of `util::Counter<T>`: the backing `HashMap<T, u64>` as an
association list (iteration order = list order). -/
structure Counter (T : Type) where
  map : List (T × Nat)

namespace Counter

/-- Embedding of `Counter::new`. -/
def new {T : Type} : Counter T := ⟨[]⟩

/-- `HashMap::get` on the association-list model. -/
def mapGet {T : Type} [DecidableEq T] : List (T × Nat) → T → Option Nat
  | [], _ => none
  | p :: rest, k => if p.1 = k then some p.2 else mapGet rest k

/-- `HashMap::insert` on the association-list model: replaces the value of
an existing key in place, otherwise appends the new entry at the end. -/
def mapInsert {T : Type} [DecidableEq T] : List (T × Nat) → T → Nat → List (T × Nat)
  | [], k, v => [(k, v)]
  | p :: rest, k, v => if p.1 = k then (k, v) :: rest else p :: mapInsert rest k v

/-- Embedding of `Counter::insert`: increment the stored count by one,
starting from one for an unseen item. -/
def insert {T : Type} [DecidableEq T] (c : Counter T) (item : T) : Counter T :=
  let newVal : Nat :=
    match mapGet c.map item with
    | some val => val + 1
    | none => 1
  ⟨mapInsert c.map item newVal⟩

/-- Embedding of `Counter::with_iterator`: insert every item of the
sequence, in order. -/
def withIterator {T : Type} [DecidableEq T] (items : List T) : Counter T :=
  items.foldl insert new

/-- Embedding of `Counter::get`. -/
def get {T : Type} [DecidableEq T] (c : Counter T) (item : T) : Option Nat :=
  mapGet c.map item

/-- The loop body of `Counter::most_frequent`: replace the running
`(rval, rfreq)` pair when the entry's count strictly exceeds `rfreq`. -/
def mfStep {T : Type} (acc : Option T × Nat) (p : T × Nat) : Option T × Nat :=
  if acc.2 < p.2 then (some p.1, p.2) else acc

/-- Embedding of `Counter::most_frequent`: `ok none` for an empty counter,
otherwise a fold of `mfStep` starting from `(None, 0)`; the final
`rval.unwrap()` panic is the `error` case. -/
def mostFrequent {T : Type} (c : Counter T) : Except String (Option (T × Nat)) :=
  match c.map with
  | [] => Except.ok none
  | entries =>
    let r := entries.foldl mfStep (none, 0)
    match r.1 with
    | some v => Except.ok (some (v, r.2))
    | none => Except.error unwrapMsg

/-- The largest count among a list of counter entries (`0` when empty). -/
def maxCountL {T : Type} : List (T × Nat) → Nat
  | [] => 0
  | p :: rest => max p.2 (maxCountL rest)

/-- `most_frequent` as the spec words it (refinement target): absent for an
empty counter, otherwise the FIRST entry in iteration order whose count
equals the maximum count, never replaced by a later entry of equal count. -/
def mostFrequentSpec {T : Type} (c : Counter T) : Option (T × Nat) :=
  c.map.find? (fun p => p.2 == maxCountL c.map)

end Counter

/-- Embedding of `knn::KNNClassifier<T>`. -/
structure KNNClassifier (T : Type) where
  k : Nat
  data : Option (List (List ℚ))
  labels : Option (List T)

namespace KNNClassifier

/-- Embedding of `KNNClassifier::new`. -/
def new (T : Type) (k : Nat) : KNNClassifier T := ⟨k, none, none⟩

/-- Embedding of `KNNClassifier::fit`: store data and labels verbatim. -/
def fit {T : Type} (clf : KNNClassifier T) (data : List (List ℚ)) (labels : List T) :
    KNNClassifier T :=
  { clf with data := some data, labels := some labels }

/-- The inner `for j in 0..self.k` loop of `predict_one`: replace the FIRST
candidate whose distance exceeds `d` by `(i, d)`, then break; leave the
set unchanged when no candidate qualifies. -/
def replaceFirst (i : Nat) (d : ℚ) : List (Nat × ℚ) → List (Nat × ℚ)
  | [] => []
  | c :: rest => if d < c.2 then (i, d) :: rest else c :: replaceFirst i d rest

/-- One iteration of `predict_one`'s candidate loop for the enumerated
training point `p`: admit unconditionally while fewer than `self.k`
candidates are held, otherwise run the first-improvement replacement
scan. -/
def scanStep (k : Nat) (x : List ℚ)
    (best : List (Nat × ℚ)) (p : Nat × List ℚ) : List (Nat × ℚ) :=
  let d := squaredDistance x p.2
  if best.length < k then best ++ [(p.1, d)]
  else replaceFirst p.1 d best

/-- The candidate set `predict_one` holds after scanning all training
points (pairs of `best_neigh` index and `best_dists` distance, in slot
order). -/
def candidateScan (k : Nat) (x : List ℚ) (data : List (List ℚ)) : List (Nat × ℚ) :=
  data.enum.foldl (scanStep k x) []

/-- The `best_neigh.iter().map(|&idx| labels[idx].clone())` iterator:
`none` models the out-of-bounds panic of `labels[idx]`. -/
def collectLabels {T : Type} (labels : List T) : List (Nat × ℚ) → Option (List T)
  | [] => some []
  | c :: rest =>
    match labels[c.1]? with
    | some l => (collectLabels labels rest).map (fun ls => l :: ls)
    | none => none

/-- Embedding of `KNNClassifier::predict_one`: `ok none` before `fit`;
otherwise run the candidate scan, count the candidate labels, and unwrap
the most frequent one (`error` = panic). -/
def predictOne {T : Type} [DecidableEq T] (clf : KNNClassifier T) (x : List ℚ) :
    Except String (Option T) :=
  match clf.data with
  | some data =>
    let best := candidateScan clf.k x data
    match clf.labels with
    | some labels =>
      match collectLabels labels best with
      | some ls =>
        match Counter.mostFrequent (Counter.withIterator ls) with
        | Except.ok (some p) => Except.ok (some p.1)
        | Except.ok none => Except.error unwrapMsg
        | Except.error e => Except.error e
      | none => Except.error indexMsg
    | none => Except.error emptyLabelsMsg
  | none => Except.ok none

/-- Embedding of `KNNClassifier::predict`'s loop body: push
`predict_one(x).unwrap()` for each query (`error` = panic). -/
def predictList {T : Type} [DecidableEq T] (clf : KNNClassifier T) :
    List (List ℚ) → Except String (List T)
  | [] => Except.ok []
  | q :: rest =>
    match predictOne clf q with
    | Except.ok (some l) => (predictList clf rest).map (fun ls => l :: ls)
    | Except.ok none => Except.error unwrapMsg
    | Except.error e => Except.error e

/-- Embedding of `KNNClassifier::predict`: `ok none` before `fit`,
otherwise one unwrapped `predict_one` result per query, in order. -/
def predict {T : Type} [DecidableEq T] (clf : KNNClassifier T) (qs : List (List ℚ)) :
    Except String (Option (List T)) :=
  match clf.data with
  | none => Except.ok none
  | some _ => (predictList clf qs).map some

end KNNClassifier

/-- The multiset of the `k` smallest entries of a distance list (the spec's
notion of a correct top-k selection), obtained by sorting ascending and
taking the first `k`. -/
def kSmallestDists (k : Nat) (dists : List ℚ) : Multiset ℚ :=
  (((List.insertionSort (fun a b => a ≤ b) dists).take k : List ℚ) : Multiset ℚ)

/-! ### Vector math lemmas -/

lemma foldl_mul_add (l : List (ℚ × ℚ)) (c : ℚ) :
    l.foldl (fun acc p => acc + p.1 * p.2) c =
      c + l.foldl (fun acc p => acc + p.1 * p.2) 0 := by
  induction l generalizing c with
  | nil => simp
  | cons p rest ih =>
    simp only [List.foldl_cons]
    rw [ih (c + p.1 * p.2), ih (0 + p.1 * p.2)]
    ring

lemma dotProduct_cons (a b : ℚ) (v1 v2 : List ℚ) :
    dotProduct (a :: v1) (b :: v2) = a * b + dotProduct v1 v2 := by
  simp only [dotProduct, List.zip_cons_cons, List.foldl_cons]
  rw [foldl_mul_add]
  ring

lemma squaredDistance_cons (a b : ℚ) (v1 v2 : List ℚ) :
    squaredDistance (a :: v1) (b :: v2) = (a - b) * (a - b) + squaredDistance v1 v2 := by
  simp only [squaredDistance, List.zip_cons_cons, List.map_cons]
  exact dotProduct_cons _ _ _ _

/-- C9: `squared_distance(v, v) = 0` for every vector `v`. -/
theorem squared_distance_self_eq_zero (v : List ℚ) : squaredDistance v v = 0 := by
  induction v with
  | nil => rfl
  | cons a t ih => rw [squaredDistance_cons, ih]; ring

/-- C8: `dot_product(v1, v2)` is the sum of `v1[i] * v2[i]` with `i`
ranging over the length of the shorter vector (zip semantics, no error on
mismatched lengths). -/
theorem dot_product_overlapping_prefix (v1 v2 : List ℚ) :
    dotProduct v1 v2 =
      ∑ i ∈ Finset.range (min v1.length v2.length), v1.getD i 0 * v2.getD i 0 := by
  induction v1 generalizing v2 with
  | nil => simp [dotProduct]
  | cons a t1 ih =>
    cases v2 with
    | nil => simp [dotProduct]
    | cons b t2 =>
      rw [dotProduct_cons, ih t2, List.length_cons, List.length_cons,
        Nat.succ_min_succ, Finset.sum_range_succ']
      simp only [List.getD_cons_succ, List.getD_cons_zero]
      ring

/-! ### Untrained-classifier behaviour -/

/-- C5: before any `fit`, `predict_one` and `predict` both return the
absent result on every input. -/
theorem predict_untrained_absent {T : Type} [DecidableEq T] (k : Nat)
    (x : List ℚ) (qs : List (List ℚ)) :
    KNNClassifier.predictOne (KNNClassifier.new T k) x = Except.ok none ∧
      KNNClassifier.predict (KNNClassifier.new T k) qs = Except.ok none :=
  ⟨rfl, rfl⟩

/-! ### Counter invariants -/

lemma mem_mapInsert {T : Type} [DecidableEq T] (l : List (T × Nat)) (k : T)
    (v : Nat) (p : T × Nat) (hp : p ∈ Counter.mapInsert l k v) :
    p = (k, v) ∨ p ∈ l := by
  induction l with
  | nil =>
    simp only [Counter.mapInsert, List.mem_singleton] at hp
    exact Or.inl hp
  | cons q rest ih =>
    simp only [Counter.mapInsert] at hp
    by_cases h : q.1 = k
    · simp only [if_pos h, List.mem_cons] at hp
      rcases hp with hp | hp
      · exact Or.inl hp
      · exact Or.inr (List.mem_cons_of_mem _ hp)
    · simp only [if_neg h, List.mem_cons] at hp
      rcases hp with hp | hp
      · exact Or.inr (hp ▸ List.mem_cons_self _ _)
      · rcases ih hp with h1 | h1
        · exact Or.inl h1
        · exact Or.inr (List.mem_cons_of_mem _ h1)

lemma counts_pos_insert {T : Type} [DecidableEq T] (c : Counter T) (i : T)
    (h : ∀ p ∈ c.map, 1 ≤ p.2) : ∀ p ∈ (c.insert i).map, 1 ≤ p.2 := by
  intro p hp
  have hp' : p ∈ Counter.mapInsert c.map i
      (match Counter.mapGet c.map i with
       | some val => val + 1
       | none => 1) := hp
  rcases mem_mapInsert _ _ _ _ hp' with h1 | h1
  · subst h1
    cases hmg : Counter.mapGet c.map i <;> simp [hmg]
  · exact h p h1

lemma counts_pos_foldl {T : Type} [DecidableEq T] (items : List T)
    (c : Counter T) (h : ∀ p ∈ c.map, 1 ≤ p.2) :
    ∀ p ∈ (items.foldl Counter.insert c).map, 1 ≤ p.2 := by
  induction items generalizing c with
  | nil => exact h
  | cons i rest ih => exact ih (c.insert i) (counts_pos_insert c i h)

lemma counts_pos_withIterator {T : Type} [DecidableEq T] (items : List T) :
    ∀ p ∈ (Counter.withIterator items).map, 1 ≤ p.2 :=
  counts_pos_foldl items Counter.new (by intro p hp; cases hp)

lemma mapGet_mem {T : Type} [DecidableEq T] (l : List (T × Nat)) (x : T)
    (n : Nat) (h : Counter.mapGet l x = some n) : (x, n) ∈ l := by
  induction l with
  | nil => cases h
  | cons q rest ih =>
    simp only [Counter.mapGet] at h
    by_cases hq : q.1 = x
    · rw [if_pos hq] at h
      have : q = (x, n) := by
        cases q
        simp only [Option.some.injEq] at h
        simp_all
      exact this ▸ List.mem_cons_self _ _
    · rw [if_neg hq] at h
      exact List.mem_cons_of_mem _ (ih h)

/-- C10: on every counter reachable from `new` by a sequence of `insert`
calls (equivalently, built by `with_iterator`), `get` never returns a
stored count below one. -/
theorem counter_get_positive {T : Type} [DecidableEq T] (items : List T)
    (x : T) (n : Nat) (h : (Counter.withIterator items).get x = some n) :
    1 ≤ n :=
  counts_pos_withIterator items (x, n) (mapGet_mem _ _ _ h)

/-- Witness for `counter_get_positive` at a concrete insert sequence. -/
theorem counter_get_positive_witness :
    (Counter.withIterator [true, true]).get true = some 2 ∧ 1 ≤ 2 :=
  ⟨by decide, counter_get_positive [true, true] true 2 (by decide)⟩

/-! ### fit stores data and labels verbatim -/

/-- C3 counterexample: `fit` performs no validation, so fitting an empty
dataset against one label stores a dataset of length 0 and labels of
length 1 — the claimed invariant fails for inputs of unequal lengths. -/
theorem fit_length_invariant_counterexample :
    ((KNNClassifier.new Nat 1).fit [] [0]).data.map List.length = some 0 ∧
    ((KNNClassifier.new Nat 1).fit [] [0]).labels.map List.length = some 1 ∧
    ((KNNClassifier.new Nat 1).fit [] [0]).data.map List.length ≠
      ((KNNClassifier.new Nat 1).fit [] [0]).labels.map List.length :=
  ⟨rfl, rfl, by decide⟩

/-- C3 amended: after `fit(data, labels)` with `data` and `labels` of equal
length, the stored dataset length equals the stored labels length. -/
theorem fit_stores_equal_lengths_of_aligned {T : Type} (clf : KNNClassifier T)
    (data : List (List ℚ)) (labels : List T) (h : data.length = labels.length) :
    ∃ d l, (clf.fit data labels).data = some d ∧
      (clf.fit data labels).labels = some l ∧ d.length = l.length :=
  ⟨data, labels, rfl, rfl, h⟩

/-- Witness for `fit_stores_equal_lengths_of_aligned`. -/
theorem fit_stores_equal_lengths_of_aligned_witness :
    [[(0 : ℚ)]].length = [(3 : Nat)].length ∧
    ∃ d l, ((KNNClassifier.new Nat 1).fit [[0]] [3]).data = some d ∧
      ((KNNClassifier.new Nat 1).fit [[0]] [3]).labels = some l ∧
      d.length = l.length :=
  ⟨rfl, fit_stores_equal_lengths_of_aligned (KNNClassifier.new Nat 1) [[0]] [3] rfl⟩

/-! ### predict_one panics on an empty candidate set -/

/-- C2: with `k = 0` (or no training points) the candidate set is empty,
`most_frequent` yields the absent value, and `predict_one`'s `.unwrap()`
panics instead of propagating absence — contradicting the spec's stated
error policy. -/
theorem predict_one_empty_candidates_panics :
    KNNClassifier.predictOne (⟨0, some [[0]], some [0]⟩ : KNNClassifier Nat) [0] =
        Except.error unwrapMsg ∧
      KNNClassifier.predictOne (⟨3, some [], some []⟩ : KNNClassifier Nat) [0] =
        Except.error unwrapMsg :=
  ⟨rfl, rfl⟩

/-! ### most_frequent: first entry attaining the maximum count wins -/

namespace Counter

lemma mem_le_maxCountL {T : Type} (l : List (T × Nat)) (q : T × Nat)
    (hq : q ∈ l) : q.2 ≤ maxCountL l := by
  induction l with
  | nil => cases hq
  | cons p rest ih =>
    rcases List.mem_cons.mp hq with h | h
    · subst h; exact le_max_left _ _
    · exact le_trans (ih h) (le_max_right _ _)

lemma maxCountL_attained {T : Type} (l : List (T × Nat)) (hl : l ≠ []) :
    ∃ q ∈ l, q.2 = maxCountL l := by
  induction l with
  | nil => exact absurd rfl hl
  | cons p rest ih =>
    by_cases hp : maxCountL rest ≤ p.2
    · exact ⟨p, List.mem_cons_self _ _, (Nat.max_eq_left hp).symm⟩
    · have hrest : rest ≠ [] := by
        intro h
        rw [h] at hp
        exact hp (Nat.zero_le _)
      obtain ⟨q, hq, hq2⟩ := ih hrest
      refine ⟨q, List.mem_cons_of_mem _ hq, ?_⟩
      rw [hq2, maxCountL, Nat.max_eq_right (le_of_lt (not_le.mp hp))]

lemma foldl_mfStep_no_improvement {T : Type} (l : List (T × Nat))
    (r0 : Option T) (f : Nat) (h : ∀ p ∈ l, p.2 ≤ f) :
    l.foldl mfStep (r0, f) = (r0, f) := by
  induction l with
  | nil => rfl
  | cons p rest ih =>
    have hp : ¬ f < p.2 := not_lt.mpr (h p (List.mem_cons_self _ _))
    rw [List.foldl_cons]
    rw [show mfStep (r0, f) p = (r0, f) from if_neg hp]
    exact ih (fun q hq => h q (List.mem_cons_of_mem _ hq))

lemma foldl_mfStep_char {T : Type} (l : List (T × Nat)) :
    ∀ (r0 : Option T) (f : Nat), f < maxCountL l →
      ∃ w, l.find? (fun p => p.2 == maxCountL l) = some w ∧
        l.foldl mfStep (r0, f) = (some w.1, maxCountL l) := by
  induction l with
  | nil => intro r0 f h; exact absurd h (Nat.not_lt_zero f)
  | cons p rest ih =>
    intro r0 f h
    by_cases hp : maxCountL rest ≤ p.2
    · have hmax : maxCountL (p :: rest) = p.2 := Nat.max_eq_left hp
      have hf : f < p.2 := hmax ▸ h
      refine ⟨p, ?_, ?_⟩
      · rw [List.find?_cons, show (p.2 == maxCountL (p :: rest)) = true from
          beq_iff_eq.mpr hmax.symm]
      · rw [List.foldl_cons, show mfStep (r0, f) p = (some p.1, p.2) from if_pos hf,
          hmax]
        exact foldl_mfStep_no_improvement rest (some p.1) p.2
          (fun q hq => le_trans (mem_le_maxCountL rest q hq) hp)
    · have hpr : p.2 < maxCountL rest := not_le.mp hp
      have hmax : maxCountL (p :: rest) = maxCountL rest :=
        Nat.max_eq_right (le_of_lt hpr)
      have hfind : (p.2 == maxCountL (p :: rest)) = false := by
        rw [hmax]
        exact beq_eq_false_iff_ne.mpr (Nat.ne_of_lt hpr)
      by_cases hfp : f < p.2
      · obtain ⟨w, hw1, hw2⟩ := ih (some p.1) p.2 hpr
        refine ⟨w, ?_, ?_⟩
        · rw [List.find?_cons, hfind]
          rw [hmax]
          exact hw1
        · rw [List.foldl_cons, show mfStep (r0, f) p = (some p.1, p.2) from if_pos hfp,
            hmax]
          exact hw2
      · have hfr : f < maxCountL rest := hmax ▸ h
        obtain ⟨w, hw1, hw2⟩ := ih r0 f hfr
        refine ⟨w, ?_, ?_⟩
        · rw [List.find?_cons, hfind]
          rw [hmax]
          exact hw1
        · rw [List.foldl_cons, show mfStep (r0, f) p = (r0, f) from if_neg hfp, hmax]
          exact hw2

lemma mapInsert_ne_nil {T : Type} [DecidableEq T] (l : List (T × Nat)) (k : T)
    (v : Nat) : mapInsert l k v ≠ [] := by
  cases l with
  | nil => simp [mapInsert]
  | cons p rest =>
    rw [mapInsert]
    by_cases h : p.1 = k
    · rw [if_pos h]
      exact List.cons_ne_nil _ _
    · rw [if_neg h]
      exact List.cons_ne_nil _ _

lemma insert_map_ne_nil {T : Type} [DecidableEq T] (c : Counter T) (i : T) :
    (c.insert i).map ≠ [] :=
  mapInsert_ne_nil c.map i _

lemma foldl_insert_map_ne_nil {T : Type} [DecidableEq T] (items : List T) :
    ∀ c : Counter T, c.map ≠ [] → (items.foldl insert c).map ≠ [] := by
  induction items with
  | nil => exact fun c hc => hc
  | cons i rest ih => exact fun c _ => ih (c.insert i) (insert_map_ne_nil c i)

lemma withIterator_map_ne_nil {T : Type} [DecidableEq T] (items : List T)
    (h : items ≠ []) : (withIterator items).map ≠ [] := by
  cases items with
  | nil => exact absurd rfl h
  | cons i rest =>
    rw [withIterator, List.foldl_cons]
    exact foldl_insert_map_ne_nil rest (new.insert i) (insert_map_ne_nil new i)

lemma mostFrequent_ok {T : Type} (c : Counter T) (hne : c.map ≠ [])
    (hpos : ∀ p ∈ c.map, 1 ≤ p.2) :
    ∃ w, mostFrequent c = Except.ok (some w) := by
  match hc : c.map with
  | [] => exact absurd hc hne
  | p :: rest =>
    have h0 : 0 < maxCountL (p :: rest) :=
      lt_of_lt_of_le (hpos p (hc ▸ List.mem_cons_self _ _))
        (mem_le_maxCountL _ _ (List.mem_cons_self _ _))
    obtain ⟨w, _, hw2⟩ := foldl_mfStep_char (p :: rest) none 0 h0
    exact ⟨(w.1, maxCountL (p :: rest)), by simp only [mostFrequent, hc, hw2]⟩

end Counter

/-- C4: for every reachable counter (all stored counts positive),
`most_frequent` returns absent exactly on the empty counter, and otherwise
returns, without panicking, the FIRST entry in iteration order whose count
equals the maximum count — a later entry with an equal count never
replaces it. -/
theorem most_frequent_first_max {T : Type} (c : Counter T)
    (hpos : ∀ p ∈ c.map, 1 ≤ p.2) :
    Counter.mostFrequent c = Except.ok (Counter.mostFrequentSpec c) ∧
      (Counter.mostFrequentSpec c = none ↔ c.map = []) := by
  constructor
  · match hc : c.map with
    | [] =>
      simp [Counter.mostFrequent, Counter.mostFrequentSpec, hc]
    | p :: rest =>
      have hpmem : p ∈ c.map := hc ▸ List.mem_cons_self _ _
      have h0 : 0 < Counter.maxCountL (p :: rest) :=
        lt_of_lt_of_le (hpos p hpmem) (Counter.mem_le_maxCountL _ _ (List.mem_cons_self _ _))
      obtain ⟨w, hw1, hw2⟩ := Counter.foldl_mfStep_char (p :: rest) none 0 h0
      have hw2' := List.find?_some hw1
      simp only [beq_iff_eq] at hw2'
      simp only [Counter.mostFrequent, Counter.mostFrequentSpec, hc, hw2]
      rw [hw1, ← hw2']
  · constructor
    · intro h
      by_contra hne
      obtain ⟨q, hq, hq2⟩ := Counter.maxCountL_attained c.map hne
      have : (fun p => p.2 == Counter.maxCountL c.map) q = true := beq_iff_eq.mpr hq2
      rw [Counter.mostFrequentSpec, List.find?_eq_none] at h
      exact h q hq this
    · intro h
      simp [Counter.mostFrequentSpec, h]

/-- Witness for `most_frequent_first_max`: on the counter with entries
`(0, 2), (1, 2), (2, 1)` the first of the two tied entries wins. -/
theorem most_frequent_first_max_witness :
    (∀ p ∈ (⟨[(0, 2), (1, 2), (2, 1)]⟩ : Counter Nat).map, 1 ≤ p.2) ∧
    Counter.mostFrequent (⟨[(0, 2), (1, 2), (2, 1)]⟩ : Counter Nat) =
      Except.ok (some (0, 2)) ∧
    (Counter.mostFrequent (⟨[(0, 2), (1, 2), (2, 1)]⟩ : Counter Nat) =
        Except.ok (Counter.mostFrequentSpec (⟨[(0, 2), (1, 2), (2, 1)]⟩ : Counter Nat)) ∧
      (Counter.mostFrequentSpec (⟨[(0, 2), (1, 2), (2, 1)]⟩ : Counter Nat) = none ↔
        (⟨[(0, 2), (1, 2), (2, 1)]⟩ : Counter Nat).map = [])) :=
  ⟨by decide, rfl,
    most_frequent_first_max (⟨[(0, 2), (1, 2), (2, 1)]⟩ : Counter Nat) (by decide)⟩

/-! ### The first-improvement scan is not an exact top-k selection -/

/-- C1 counterexample: `k = 2`, query `[0]`, training points `[2], [3], [1]`
(squared distances 4, 9, 1 in scan order).  The third point replaces the
FIRST candidate exceeding it (distance 4), leaving distances `{1, 9}`,
while the two smallest distances are `{1, 4}`. -/
theorem first_improvement_not_top_k_counterexample :
    (((KNNClassifier.candidateScan 2 [0] [[2], [3], [1]]).map Prod.snd : List ℚ) : Multiset ℚ) ≠
      kSmallestDists 2 ([[2], [3], [1]].map (squaredDistance [0])) := by
  have h1 : KNNClassifier.candidateScan 2 [0] [[2], [3], [1]] = [(2, 1), (1, 9)] := by
    norm_num [KNNClassifier.candidateScan, KNNClassifier.scanStep,
      KNNClassifier.replaceFirst, squaredDistance, dotProduct, List.enum, List.enumFrom]
  have h2 : kSmallestDists 2 ([[2], [3], [1]].map (squaredDistance [0])) =
      (([1, 4] : List ℚ) : Multiset ℚ) := by
    norm_num [kSmallestDists, List.insertionSort, List.orderedInsert,
      squaredDistance, dotProduct]
  rw [h1, h2]
  simp only [List.map_cons, List.map_nil, ne_eq, Multiset.coe_eq_coe]
  intro h
  have h9 : (9 : ℚ) ∈ ([1, 4] : List ℚ) := h.mem_iff.mp (by norm_num)
  norm_num at h9

/-! ### Properties of the candidate scan -/

namespace KNNClassifier

lemma replaceFirst_length (i : Nat) (d : ℚ) (l : List (Nat × ℚ)) :
    (replaceFirst i d l).length = l.length := by
  induction l with
  | nil => rfl
  | cons c rest ih =>
    rw [replaceFirst]
    by_cases h : d < c.2
    · rw [if_pos h]
      simp
    · rw [if_neg h]
      simp [ih]

lemma mem_replaceFirst (i : Nat) (d : ℚ) (l : List (Nat × ℚ)) (c : Nat × ℚ)
    (hc : c ∈ replaceFirst i d l) : c ∈ l ∨ c = (i, d) := by
  induction l with
  | nil => cases hc
  | cons q rest ih =>
    rw [replaceFirst] at hc
    by_cases h : d < q.2
    · rw [if_pos h] at hc
      rcases List.mem_cons.mp hc with h1 | h1
      · exact Or.inr h1
      · exact Or.inl (List.mem_cons_of_mem _ h1)
    · rw [if_neg h] at hc
      rcases List.mem_cons.mp hc with h1 | h1
      · exact Or.inl (h1 ▸ List.mem_cons_self _ _)
      · rcases ih h1 with h2 | h2
        · exact Or.inl (List.mem_cons_of_mem _ h2)
        · exact Or.inr h2

lemma replaceFirst_keeps (i : Nat) (d : ℚ) (l : List (Nat × ℚ)) (c : Nat × ℚ)
    (hc : c ∈ l) (hcd : ¬ d < c.2) : c ∈ replaceFirst i d l := by
  induction l with
  | nil => cases hc
  | cons q rest ih =>
    rw [replaceFirst]
    by_cases h : d < q.2
    · rw [if_pos h]
      rcases List.mem_cons.mp hc with h1 | h1
      · exact absurd (by rw [h1]; exact h) hcd
      · exact List.mem_cons_of_mem _ h1
    · rw [if_neg h]
      rcases List.mem_cons.mp hc with h1 | h1
      · exact h1 ▸ List.mem_cons_self _ _
      · exact List.mem_cons_of_mem _ (ih h1)

lemma replaceFirst_inserts (i : Nat) (d : ℚ) (l : List (Nat × ℚ))
    (h : ∃ c ∈ l, d < c.2) : (i, d) ∈ replaceFirst i d l := by
  induction l with
  | nil =>
    obtain ⟨c, hc, _⟩ := h
    cases hc
  | cons q rest ih =>
    rw [replaceFirst]
    by_cases hq : d < q.2
    · rw [if_pos hq]
      exact List.mem_cons_self _ _
    · rw [if_neg hq]
      obtain ⟨c, hc, hcd⟩ := h
      rcases List.mem_cons.mp hc with h1 | h1
      · exact absurd (by rw [← h1]; exact hcd) hq
      · exact List.mem_cons_of_mem _ (ih ⟨c, h1, hcd⟩)

lemma scanStep_push (k : Nat) (x : List ℚ) (best : List (Nat × ℚ))
    (p : Nat × List ℚ) (h : best.length < k) :
    scanStep k x best p = best ++ [(p.1, squaredDistance x p.2)] := by
  simp [scanStep, h]

lemma scanStep_full (k : Nat) (x : List ℚ) (best : List (Nat × ℚ))
    (p : Nat × List ℚ) (h : ¬ best.length < k) :
    scanStep k x best p = replaceFirst p.1 (squaredDistance x p.2) best := by
  simp [scanStep, h]

lemma foldl_scan_length (k : Nat) (x : List ℚ) (l : List (Nat × List ℚ)) :
    ∀ best : List (Nat × ℚ), best.length ≤ k →
      (l.foldl (scanStep k x) best).length = min k (best.length + l.length) := by
  induction l with
  | nil =>
    intro best hb
    simp [Nat.min_eq_right hb]
  | cons p rest ih =>
    intro best hb
    rw [List.foldl_cons]
    by_cases hlt : best.length < k
    · rw [scanStep_push k x best p hlt,
        ih _ (by simp only [List.length_append, List.length_singleton]; omega)]
      simp only [List.length_append, List.length_singleton, List.length_cons,
        List.length_nil]
      omega
    · rw [scanStep_full k x best p hlt,
        ih _ (by rw [replaceFirst_length]; exact hb), replaceFirst_length]
      simp only [List.length_cons]
      omega

lemma foldl_scan_mem (k : Nat) (x : List ℚ) (l : List (Nat × List ℚ)) :
    ∀ (best : List (Nat × ℚ)) (c : Nat × ℚ), c ∈ l.foldl (scanStep k x) best →
      c ∈ best ∨ ∃ p ∈ l, c = (p.1, squaredDistance x p.2) := by
  induction l with
  | nil =>
    intro best c hc
    exact Or.inl hc
  | cons p rest ih =>
    intro best c hc
    rw [List.foldl_cons] at hc
    rcases ih _ c hc with h | h
    · by_cases hlt : best.length < k
      · rw [scanStep_push k x best p hlt] at h
        rcases List.mem_append.mp h with h1 | h1
        · exact Or.inl h1
        · exact Or.inr ⟨p, List.mem_cons_self _ _, List.mem_singleton.mp h1⟩
      · rw [scanStep_full k x best p hlt] at h
        rcases mem_replaceFirst _ _ _ _ h with h1 | h1
        · exact Or.inl h1
        · exact Or.inr ⟨p, List.mem_cons_self _ _, h1⟩
    · obtain ⟨q, hq, hq2⟩ := h
      exact Or.inr ⟨q, List.mem_cons_of_mem _ hq, hq2⟩

lemma foldl_min_le_init (x : List ℚ) (l : List (Nat × List ℚ)) :
    ∀ m : ℚ, l.foldl (fun acc q => min acc (squaredDistance x q.2)) m ≤ m := by
  induction l with
  | nil => intro m; exact le_refl m
  | cons p rest ih =>
    intro m
    rw [List.foldl_cons]
    exact le_trans (ih _) (min_le_left _ _)

lemma foldl_min_le_mem (x : List ℚ) (l : List (Nat × List ℚ)) (p : Nat × List ℚ)
    (hp : p ∈ l) :
    ∀ m : ℚ, l.foldl (fun acc q => min acc (squaredDistance x q.2)) m ≤
      squaredDistance x p.2 := by
  induction l with
  | nil => cases hp
  | cons q rest ih =>
    intro m
    rw [List.foldl_cons]
    rcases List.mem_cons.mp hp with h | h
    · refine le_trans (foldl_min_le_init x rest _) ?_
      rw [h]
      exact min_le_right _ _
    · exact ih h _

lemma foldl_scan_min (k : Nat) (x : List ℚ) (l : List (Nat × List ℚ)) :
    ∀ (best : List (Nat × ℚ)) (m : ℚ), best.length ≤ k → (∃ c ∈ best, c.2 ≤ m) →
      ∃ c ∈ l.foldl (scanStep k x) best,
        c.2 ≤ l.foldl (fun acc q => min acc (squaredDistance x q.2)) m := by
  induction l with
  | nil =>
    intro best m _ h
    exact h
  | cons p rest ih =>
    intro best m hb hbest
    obtain ⟨c0, hc0, hc0m⟩ := hbest
    rw [List.foldl_cons, List.foldl_cons]
    by_cases hlt : best.length < k
    · rw [scanStep_push k x best p hlt]
      refine ih _ _ (by simp only [List.length_append, List.length_singleton]; omega) ?_
      by_cases hcd : c0.2 ≤ squaredDistance x p.2
      · exact ⟨c0, List.mem_append_left _ hc0, le_min hc0m hcd⟩
      · exact ⟨(p.1, squaredDistance x p.2),
          List.mem_append_right _ (List.mem_singleton_self _),
          le_min (le_trans (le_of_lt (not_le.mp hcd)) hc0m) (le_refl _)⟩
    · rw [scanStep_full k x best p hlt]
      refine ih _ _ (by rw [replaceFirst_length]; exact hb) ?_
      by_cases hcd : squaredDistance x p.2 < c0.2
      · exact ⟨(p.1, squaredDistance x p.2),
          replaceFirst_inserts _ _ _ ⟨c0, hc0, hcd⟩,
          le_min (le_trans (le_of_lt hcd) hc0m) (le_refl _)⟩
      · exact ⟨c0, replaceFirst_keeps _ _ _ _ hc0 hcd, le_min hc0m (not_lt.mp hcd)⟩

/-- C1 amended: the first-improvement candidate scan keeps `min k n`
candidates, every candidate distance is the distance of some training
point, and (for `k ≥ 1` on nonempty data) some candidate achieves the
minimum distance — but the candidate multiset is NOT in general the `k`
smallest (see the counterexample theorem). -/
theorem first_improvement_partial_correctness (k : Nat) (x : List ℚ)
    (data : List (List ℚ)) (hk : 1 ≤ k) (hd : data ≠ []) :
    (candidateScan k x data).length = min k data.length ∧
    (∀ c ∈ candidateScan k x data, ∃ v ∈ data, c.2 = squaredDistance x v) ∧
    (∃ c ∈ candidateScan k x data, ∀ v ∈ data, c.2 ≤ squaredDistance x v) := by
  refine ⟨?_, ?_, ?_⟩
  · rw [candidateScan, foldl_scan_length k x data.enum [] (Nat.zero_le k)]
    simp [List.enum_length]
  · intro c hc
    rcases foldl_scan_mem k x data.enum [] c hc with h | h
    · cases h
    · obtain ⟨p, hp, hp2⟩ := h
      have hget : data[p.1]? = some p.2 := List.mem_enum_iff_getElem?.mp hp
      exact ⟨p.2, List.getElem?_mem hget, by rw [hp2]⟩
  · obtain ⟨v0, data', rfl⟩ : ∃ v0 data', data = v0 :: data' := by
      cases data with
      | nil => exact absurd rfl hd
      | cons a l => exact ⟨a, l, rfl⟩
    rw [candidateScan, List.enum_cons, List.foldl_cons]
    have h0 : ([] : List (Nat × ℚ)).length < k := hk
    rw [scanStep_push k x [] (0, v0) h0, List.nil_append]
    obtain ⟨c, hc, hcm⟩ := foldl_scan_min k x (List.enumFrom 1 data')
      [(0, squaredDistance x v0)] (squaredDistance x v0) (by simpa using hk)
      ⟨(0, squaredDistance x v0), List.mem_singleton_self _, le_refl _⟩
    refine ⟨c, hc, ?_⟩
    intro v hv
    rcases List.mem_cons.mp hv with h | h
    · rw [h]
      exact le_trans hcm (foldl_min_le_init x _ _)
    · have hex : ∃ p ∈ List.enumFrom 1 data', p.2 = v := by
        rw [← List.enumFrom_map_snd 1 data'] at h
        obtain ⟨p, hp, hp2⟩ := List.mem_map.mp h
        exact ⟨p, hp, hp2⟩
      obtain ⟨p, hp, hp2⟩ := hex
      have hle := foldl_min_le_mem x (List.enumFrom 1 data') p hp (squaredDistance x v0)
      rw [hp2] at hle
      exact le_trans hcm hle

/-- Witness for `first_improvement_partial_correctness` on the
counterexample instance itself. -/
theorem first_improvement_partial_correctness_witness :
    ((1 : Nat) ≤ 2 ∧ ([[2], [3], [1]] : List (List ℚ)) ≠ []) ∧
    ((candidateScan 2 [0] [[2], [3], [1]]).length = min 2 [[2], [3], [1]].length ∧
      (∀ c ∈ candidateScan 2 [0] [[2], [3], [1]],
        ∃ v ∈ ([[2], [3], [1]] : List (List ℚ)), c.2 = squaredDistance [0] v) ∧
      (∃ c ∈ candidateScan 2 [0] [[2], [3], [1]],
        ∀ v ∈ ([[2], [3], [1]] : List (List ℚ)), c.2 ≤ squaredDistance [0] v)) :=
  ⟨⟨by decide, by simp⟩,
    first_improvement_partial_correctness 2 [0] [[2], [3], [1]] (by decide) (by simp)⟩

/-! ### Underfull candidate sets and batch prediction -/

lemma foldl_scan_underfull (k : Nat) (x : List ℚ) (l : List (Nat × List ℚ)) :
    ∀ best : List (Nat × ℚ), best.length + l.length ≤ k →
      l.foldl (scanStep k x) best =
        best ++ l.map (fun p => (p.1, squaredDistance x p.2)) := by
  induction l with
  | nil =>
    intro best _
    simp
  | cons p rest ih =>
    intro best hb
    rw [List.foldl_cons]
    have hlt : best.length < k := by
      simp only [List.length_cons] at hb
      omega
    rw [scanStep_push k x best p hlt,
      ih _ (by simp only [List.length_append, List.length_singleton,
        List.length_cons, List.length_nil] at hb ⊢; omega), List.map_cons]
    simp

lemma collectLabels_enumFrom {T : Type} (labels : List T) (x : List ℚ)
    (data' : List (List ℚ)) :
    ∀ j : Nat, j + data'.length = labels.length →
      collectLabels labels
          ((List.enumFrom j data').map (fun p => (p.1, squaredDistance x p.2))) =
        some (labels.drop j) := by
  induction data' with
  | nil =>
    intro j h
    have hj : j = labels.length := by simpa using h
    rw [List.enumFrom_nil, List.map_nil, hj, List.drop_length]
    rfl
  | cons v rest ih =>
    intro j h
    have hj : j < labels.length := by
      simp only [List.length_cons] at h
      omega
    rw [List.enumFrom_cons, List.map_cons]
    simp only [collectLabels, List.getElem?_eq_getElem hj,
      ih (j + 1) (by simp only [List.length_cons] at h; omega), Option.map_some']
    rw [← List.drop_eq_getElem_cons hj]

lemma candidateScan_length (k : Nat) (x : List ℚ) (data : List (List ℚ)) :
    (candidateScan k x data).length = min k data.length := by
  rw [candidateScan, foldl_scan_length k x data.enum [] (Nat.zero_le k)]
  simp [List.enum_length]

lemma candidateScan_ne_nil (k : Nat) (x : List ℚ) (data : List (List ℚ))
    (hk : 1 ≤ k) (hd : data ≠ []) : candidateScan k x data ≠ [] := by
  intro hnil
  have h1 := candidateScan_length k x data
  rw [hnil] at h1
  have h2 : 0 < data.length := List.length_pos.mpr hd
  simp only [List.length_nil] at h1
  omega

lemma candidates_index_lt (k : Nat) (x : List ℚ) (data : List (List ℚ)) :
    ∀ c ∈ candidateScan k x data, c.1 < data.length := by
  intro c hc
  rcases foldl_scan_mem k x data.enum [] c hc with h | h
  · cases h
  · obtain ⟨p, hp, hp2⟩ := h
    obtain ⟨hlt, _⟩ := List.getElem?_eq_some.mp (List.mem_enum_iff_getElem?.mp hp)
    rw [hp2]
    exact hlt

lemma collectLabels_all_lt {T : Type} (labels : List T) (cs : List (Nat × ℚ))
    (h : ∀ c ∈ cs, c.1 < labels.length) :
    ∃ ls, collectLabels labels cs = some ls ∧ ls.length = cs.length := by
  induction cs with
  | nil => exact ⟨[], rfl, rfl⟩
  | cons c rest ih =>
    obtain ⟨ls, hls, hlen⟩ := ih (fun q hq => h q (List.mem_cons_of_mem _ hq))
    have hc : c.1 < labels.length := h c (List.mem_cons_self _ _)
    refine ⟨labels[c.1] :: ls, ?_, by simp [hlen]⟩
    simp only [collectLabels, List.getElem?_eq_getElem hc, hls, Option.map_some']

lemma predictOne_ok {T : Type} [DecidableEq T] (k : Nat) (data : List (List ℚ))
    (labels : List T) (x : List ℚ) (hk : 1 ≤ k) (hd : data ≠ [])
    (hl : labels.length = data.length) :
    ∃ y, predictOne ⟨k, some data, some labels⟩ x = Except.ok (some y) := by
  have hidx : ∀ c ∈ candidateScan k x data, c.1 < labels.length := by
    intro c hc
    rw [hl]
    exact candidates_index_lt k x data c hc
  obtain ⟨ls, hls, hlen⟩ := collectLabels_all_lt labels (candidateScan k x data) hidx
  have hlsne : ls ≠ [] := by
    intro hnil
    apply candidateScan_ne_nil k x data hk hd
    rw [hnil] at hlen
    exact (List.eq_nil_of_length_eq_zero hlen.symm)
  obtain ⟨w, hw⟩ := Counter.mostFrequent_ok (Counter.withIterator ls)
    (Counter.withIterator_map_ne_nil ls hlsne) (counts_pos_withIterator ls)
  refine ⟨w.1, ?_⟩
  simp only [predictOne, hls, hw]

/-- C6: when the stored training set has `1 ≤ n < k` points (and aligned
labels), every training point is admitted into the candidate set, and the
prediction is the majority vote over ALL stored labels per the counter's
first-maximum tie-break policy. -/
theorem predict_one_underfull {T : Type} [DecidableEq T] (k : Nat) (x : List ℚ)
    (data : List (List ℚ)) (labels : List T) (hn : 1 ≤ data.length)
    (hk : data.length < k) (hl : labels.length = data.length) :
    candidateScan k x data = data.enum.map (fun p => (p.1, squaredDistance x p.2)) ∧
    ∃ w, Counter.mostFrequent (Counter.withIterator labels) = Except.ok (some w) ∧
      predictOne ⟨k, some data, some labels⟩ x = Except.ok (some w.1) := by
  have hscan : candidateScan k x data =
      data.enum.map (fun p => (p.1, squaredDistance x p.2)) := by
    rw [candidateScan, foldl_scan_underfull k x data.enum []
      (by simp only [List.length_nil, List.enum_length, Nat.zero_add]; omega)]
    rw [List.nil_append]
  refine ⟨hscan, ?_⟩
  have hcollect : collectLabels labels (candidateScan k x data) = some labels := by
    rw [hscan, show data.enum = List.enumFrom 0 data from rfl,
      collectLabels_enumFrom labels x data 0 (by omega), List.drop_zero]
  have hlne : labels ≠ [] := by
    intro h
    rw [h] at hl
    simp only [List.length_nil] at hl
    omega
  obtain ⟨w, hw⟩ := Counter.mostFrequent_ok (Counter.withIterator labels)
    (Counter.withIterator_map_ne_nil labels hlne) (counts_pos_withIterator labels)
  refine ⟨w, hw, ?_⟩
  simp only [predictOne, hcollect, hw]

/-- Witness for `predict_one_underfull`: `k = 3` with only two stored
points, whose labels are both `7`. -/
theorem predict_one_underfull_witness :
    ((1 : Nat) ≤ ([[0], [1]] : List (List ℚ)).length ∧
      ([[0], [1]] : List (List ℚ)).length < 3 ∧
      ([7, 7] : List Nat).length = ([[0], [1]] : List (List ℚ)).length) ∧
    (candidateScan 3 [5] [[0], [1]] =
        ([[0], [1]] : List (List ℚ)).enum.map
          (fun p => (p.1, squaredDistance [5] p.2)) ∧
      ∃ w, Counter.mostFrequent (Counter.withIterator [7, 7]) = Except.ok (some w) ∧
        predictOne (⟨3, some [[0], [1]], some [7, 7]⟩ : KNNClassifier Nat) [5] =
          Except.ok (some w.1)) :=
  ⟨⟨by decide, by decide, by decide⟩,
    predict_one_underfull 3 [5] [[0], [1]] [7, 7] (by decide) (by decide) (by decide)⟩

/-- C7: on a fitted classifier with `k ≥ 1`, nonempty data and aligned
labels, `predict` returns exactly one label per query, in query order, and
the i-th label is exactly `predict_one` of the i-th query. -/
theorem predict_batch {T : Type} [DecidableEq T] (k : Nat)
    (data : List (List ℚ)) (labels : List T) (qs : List (List ℚ))
    (hk : 1 ≤ k) (hd : data ≠ []) (hl : labels.length = data.length) :
    ∃ rs, predict ⟨k, some data, some labels⟩ qs = Except.ok (some rs) ∧
      rs.length = qs.length ∧
      List.Forall₂
        (fun q r => predictOne ⟨k, some data, some labels⟩ q = Except.ok (some r))
        qs rs := by
  have hlist : ∃ rs, predictList ⟨k, some data, some labels⟩ qs = Except.ok rs ∧
      List.Forall₂
        (fun q r => predictOne ⟨k, some data, some labels⟩ q = Except.ok (some r))
        qs rs := by
    induction qs with
    | nil => exact ⟨[], rfl, List.Forall₂.nil⟩
    | cons q rest ih =>
      obtain ⟨rs, hrs, hf⟩ := ih
      obtain ⟨y, hy⟩ := predictOne_ok k data labels q hk hd hl
      refine ⟨y :: rs, ?_, List.Forall₂.cons hy hf⟩
      simp only [predictList, hy, hrs, Except.map]
  obtain ⟨rs, hrs, hf⟩ := hlist
  refine ⟨rs, ?_, hf.length_eq.symm, hf⟩
  simp only [predict, hrs, Except.map]

/-- Witness for `predict_batch`: one stored point, two queries, two
returned labels. -/
theorem predict_batch_witness :
    ((1 : Nat) ≤ 1 ∧ ([[0]] : List (List ℚ)) ≠ [] ∧
      ([5] : List Nat).length = ([[0]] : List (List ℚ)).length) ∧
    ∃ rs, predict (⟨1, some [[0]], some [5]⟩ : KNNClassifier Nat) [[1], [2]] =
        Except.ok (some rs) ∧
      rs.length = ([[1], [2]] : List (List ℚ)).length ∧
      List.Forall₂
        (fun q r =>
          predictOne (⟨1, some [[0]], some [5]⟩ : KNNClassifier Nat) q =
            Except.ok (some r))
        [[1], [2]] rs :=
  ⟨⟨by decide, by simp, by decide⟩,
    predict_batch 1 [[0]] [5] [[1], [2]] (by decide) (by simp) (by decide)⟩

end KNNClassifier

end Oxide
